import Mathlib

/-!
# libcoap client driver (`main.c`): a shallow embedding

The driver consists of three pieces of logic:

* `coap_new_get`  builds the initial GET request from a path fragment,
* `split_uri`     splits the command line URI in place into server, port and path,
* the event loop of `main`, which retransmits due transactions and computes the
  `select` timeout.

C strings live in a byte memory (`List Nat`), pointers are indices into it, and
every read or write goes through a bounds check that yields `Fault.out_of_bounds`.
Loops are driven by a fuel argument; `Fault.out_of_fuel` is kept apart from the
memory fault so that the two can never be confused.
-/

namespace Coap

/-! ## C memory model -/

/-- Ways in which the embedded code can go wrong. -/
inductive Fault where
  | out_of_bounds
  | out_of_fuel
deriving DecidableEq, Repr

/-- Result of running embedded code. -/
inductive Res (α : Type) where
  | ok (a : α)
  | fault (f : Fault)
deriving DecidableEq, Repr

/-- Sequencing of fallible computations. -/
def Res.bind {α β : Type} (r : Res α) (f : α → Res β) : Res β :=
  match r with
  | .ok a => f a
  | .fault e => .fault e

instance : Monad Res where
  pure := Res.ok
  bind := Res.bind

/-- Byte of a string literal character. -/
def ch (c : Char) : Nat := c.toNat

/-- Bytes of a string literal, without terminator. -/
def bytes (s : String) : List Nat := s.toList.map ch

/-- A NUL-terminated buffer holding the string literal. -/
def cbuf (s : String) : List Nat := bytes s ++ [0]

/-- Load `*p`. -/
def rd (mem : List Nat) (p : Nat) : Res Nat :=
  match mem[p]? with
  | some c => .ok c
  | none => .fault .out_of_bounds

/-- Store `*p = v`. -/
def wr (mem : List Nat) (p : Nat) (v : Nat) : Res (List Nat) :=
  if p < mem.length then .ok (mem.set p v) else .fault .out_of_bounds

/-- The C string starting at `p`: the bytes before the first NUL, if there is one. -/
def cstr_from : List Nat → Option (List Nat)
  | [] => none
  | c :: rest => if c = 0 then some [] else (cstr_from rest).map (c :: ·)

/-- The C string a pointer designates. -/
def cstring (mem : List Nat) (p : Nat) : Option (List Nat) :=
  if p < mem.length then cstr_from (mem.drop p) else none

/-- Libc `strlen`: number of bytes before the first NUL. -/
def strlen (mem : List Nat) (p : Nat) : Res Nat :=
  match cstring mem p with
  | some s => .ok s.length
  | none => .fault .out_of_bounds

/-- Libc `isdigit` on a byte. -/
def isdigit (c : Nat) : Bool := decide (48 ≤ c ∧ c ≤ 57)

/-! ## Constants and types declared in `coap.h` -/

/-- Constants of `coap.h` used by the driver; their values are not visible here. -/
structure coap_h where
  COAP_MESSAGE_CON : Nat
  COAP_REQUEST_GET : Nat
  COAP_OPTION_URI_FULL : Nat
  COAP_OPTION_URI_PATH : Nat
  COAP_DEFAULT_PORT : Nat
  COAP_DEFAULT_MAX_RETRANSMIT : Nat
deriving DecidableEq, Repr

/-- One option of a PDU: number and value bytes. -/
structure coap_option where
  number : Nat
  value : List Nat
deriving DecidableEq, Repr

/-- Header fields of a PDU that the driver touches. -/
structure coap_hdr_t where
  type : Nat
  code : Nat
deriving DecidableEq, Repr

/-- A PDU: header and the ordered sequence of options. -/
structure coap_pdu_t where
  hdr : coap_hdr_t
  options : List coap_option
deriving DecidableEq, Repr

/-- Modelled from the spec: `coap_add_option` is declared in `coap.h` and defined
outside this source file.  Following the data model (a PDU carries an ordered
sequence of options, each a number with a byte sequence), it appends one option
whose value is the `len` bytes found at `data`. -/
def coap_add_option (pdu : coap_pdu_t) (type len : Nat) (mem : List Nat) (data : Nat) :
    coap_pdu_t :=
  { pdu with options := pdu.options ++ [⟨type, (mem.drop data).take len⟩] }

/-! ## `coap_new_get` -/

/-- Embedding of `coap_new_get`.  `coap_new_pdu` is the outcome of the allocation
(`none` is `NULL`); `uri` is a pointer into `mem` or `NULL`. -/
def coap_new_get (K : coap_h) (coap_new_pdu : Option coap_pdu_t) (mem : List Nat)
    (uri : Option Nat) : Res (Option coap_pdu_t) :=
  match coap_new_pdu with
  | none => pure none
  | some pdu => do
    let pdu := { pdu with hdr := { pdu.hdr with type := K.COAP_MESSAGE_CON } }
    let pdu := { pdu with hdr := { pdu.hdr with code := K.COAP_REQUEST_GET } }
    match uri with
    | none => pure (some pdu)
    | some uri => do
      let c ← rd mem uri
      if c ≠ 0 then
        if c ≠ ch '/' then do
          let len ← strlen mem uri
          pure (some (coap_add_option pdu K.COAP_OPTION_URI_FULL len mem uri))
        else do
          let uri := uri + 1
          let c ← rd mem uri
          if c ≠ 0 then do
            let len ← strlen mem uri
            pure (some (coap_add_option pdu K.COAP_OPTION_URI_PATH len mem uri))
          else
            pure (some pdu)
      else
        pure (some pdu)

/-! ## `split_uri` -/

/-- Libc `strncmp (str, lit, n) == 0` for a literal `lit` of `n` non-NUL bytes: the
comparison walks both strings and stops at the first difference. -/
def strncmp_eq (mem : List Nat) (p : Nat) : List Nat → Res Bool
  | [] => pure true
  | c :: lit => do
    let x ← rd mem p
    if x = c then strncmp_eq mem (p + 1) lit else pure false

/-- The loop `while ( *p && *p != stop ) ++p;`, which `split_uri` runs three times:
on `*path` with `'/'`, on `p` with `']'` and on `p` with `':'`. -/
def scan_until (stop : Nat) (mem : List Nat) : Nat → Nat → Res Nat
  | 0, _ => .fault .out_of_fuel
  | fuel + 1, p => do
    let c ← rd mem p
    if c ≠ 0 ∧ c ≠ stop then scan_until stop mem fuel (p + 1) else pure p

/-- The loop `while ( isdigit(*p) ) { *port *= 10; *port += *p - '0'; ++p; }` on an
`unsigned short` port. -/
def port_loop (mem : List Nat) : Nat → Nat → Nat → Res Nat
  | 0, _, _ => .fault .out_of_fuel
  | fuel + 1, p, port => do
    let c ← rd mem p
    if isdigit c then
      let port := (port * 10) % 65536
      let port := (port + (c - ch '0')) % 65536
      port_loop mem fuel (p + 1) port
    else pure port

/-- Local state of `split_uri` when it reaches the port test. -/
structure authority_state where
  mem : List Nat
  server : Nat
  path : Nat
  p : Nat
deriving DecidableEq, Repr

/-- First part of the absolute-URI branch of `split_uri`: `*path` runs from
`*server` to the first `'/'` or the end; a `'/'` is overwritten with NUL and
skipped.  Returns the buffer and `*path`. -/
def split_uri_path (mem : List Nat) (server : Nat) : Res (List Nat × Nat) := do
  let path ← scan_until (ch '/') mem (mem.length + 1) server
  let c ← rd mem path
  if c ≠ 0 then do
    let mem ← wr mem path 0
    pure (mem, path + 1)
  else pure (mem, path)

/-- Second part, under the comment `split server address and port`: the bracketed
branch and the host name branch.  Returns the buffer, `*server` and `p`. -/
def split_uri_server (mem : List Nat) (server : Nat) : Res (List Nat × Nat × Nat) := do
  let c ← rd mem server
  if c = ch '[' then do
    let server := server + 1
    let p ← scan_until (ch ']') mem (mem.length + 1) server
    let mem ← wr mem p 0
    pure (mem, server, p + 1)
  else do
    let p ← scan_until (ch ':') mem (mem.length + 1) server
    pure (mem, server, p)

/-- Body of the absolute-URI branch of `split_uri` up to the port test: `*server`
is `str + 7`, the path is cut off, and `p` is placed behind the server address. -/
def split_uri_authority (mem : List Nat) : Res authority_state := do
  let server := 7
  let (mem, path) ← split_uri_path mem server
  let (mem, server, p) ← split_uri_server mem server
  pure ⟨mem, server, path, p⟩

/-- The port test `if ( *p++ == ':' )` and the digit loop behind it. -/
def split_uri_port (mem : List Nat) (p : Nat) (port : Nat) : Res Nat := do
  let c ← rd mem p
  let p := p + 1
  if c = ch ':' then port_loop mem (mem.length + 1) p 0 else pure port

/-- What `split_uri` leaves behind: the buffer and the three out-parameters. -/
structure uri_parts where
  mem : List Nat
  server : Option Nat
  port : Nat
  path : Option Nat
deriving DecidableEq, Repr

/-- Embedding of `split_uri`.  The buffer `mem` starts at `str`; `server` is the
value `*server` has on entry (`none` is `NULL`). -/
def split_uri (K : coap_h) (mem : List Nat) (server : Option Nat) : Res uri_parts := do
  let port := K.COAP_DEFAULT_PORT % 65536
  if (← strncmp_eq mem 0 (bytes "coap://")) then do
    let a ← split_uri_authority mem
    let port ← split_uri_port a.mem a.p port
    pure ⟨a.mem, some a.server, port, some a.path⟩
  else
    pure ⟨mem, server, port, some 0⟩

/-- The three results of `split_uri` read back as strings. -/
def uri_parts.strings (r : uri_parts) : Option (List Nat) × Nat × Option (List Nat) :=
  (r.server.bind (cstring r.mem), r.port, r.path.bind (cstring r.mem))

/-! ## The event loop of `main` -/

/-- The value a `time_t` holds after an arithmetic result `x` is stored in it:
`time_t` is a signed 64-bit integer in two's complement, so `x` is reduced to the
range from `-2^63` up to `2^63 - 1`. -/
def time_t_wrap (x : Int) : Int :=
  (x + 9223372036854775808) % 18446744073709551616 - 9223372036854775808

/-- A node of the transmission queue: one outstanding confirmable transaction.
The scheduled time `t` is a `time_t`; `timeout` stands for the product of base
timeout and the jitter drawn for the transaction, in whole seconds. -/
structure coap_queue_t where
  t : Int
  retransmit_cnt : Nat
  timeout : Nat
  id : Nat
deriving DecidableEq, Repr

/-- The part of the context the event loop works on: the transmission queue. -/
structure coap_context_t where
  sendqueue : List coap_queue_t
deriving DecidableEq, Repr

/-- Modelled from the spec: `coap_peek_next` is defined outside this source file.
It returns the earliest transaction of the queue, or nothing if the queue is
empty, and does not change the queue. -/
def coap_peek_next (ctx : coap_context_t) : Option coap_queue_t :=
  ctx.sendqueue.head?

/-- Modelled from the spec: `coap_pop_next` is defined outside this source file.
It removes the earliest transaction from the queue and returns it. -/
def coap_pop_next (ctx : coap_context_t) : Option coap_queue_t × coap_context_t :=
  (ctx.sendqueue.head?, { ctx with sendqueue := ctx.sendqueue.tail })

/-- Modelled from the spec: insertion into the transmission queue, which is defined
outside this source file.  The queue stays ascending in the scheduled time and a
new node goes behind the nodes that have the same time. -/
def coap_insert_node (node : coap_queue_t) : List coap_queue_t → List coap_queue_t
  | [] => [node]
  | q :: rest => if node.t < q.t then node :: q :: rest else q :: coap_insert_node node rest

/-- Modelled from the spec: `coap_retransmit` is defined outside this source file.
The retry count of the transaction goes up by one; beyond the maximum the
transaction is abandoned, otherwise it is scheduled at
`now + timeout * 2 ^ retry_count`, stored in the `time_t` field `t`, and put back
into the queue. -/
def coap_retransmit (K : coap_h) (now : Int) (ctx : coap_context_t)
    (node : Option coap_queue_t) : coap_context_t :=
  match node with
  | none => ctx
  | some n =>
    let cnt := n.retransmit_cnt + 1
    if cnt > K.COAP_DEFAULT_MAX_RETRANSMIT then ctx
    else
      let n : coap_queue_t :=
        ⟨time_t_wrap (now + n.timeout * 2 ^ cnt), cnt, n.timeout, n.id⟩
      { ctx with sendqueue := coap_insert_node n ctx.sendqueue }

/-- State of the retransmission loop: the context, the local `nextpdu`, and a log
with one entry per iteration: the `nextpdu` the loop condition examined and the
node `coap_retransmit` was called with. -/
structure loop_state where
  ctx : coap_context_t
  nextpdu : Option coap_queue_t
  log : List (Option coap_queue_t × Option coap_queue_t)
deriving DecidableEq, Repr

/-- The loop `while ( nextpdu && nextpdu->t <= now ) { coap_retransmit( ctx,
coap_pop_next( ctx ) ); nextpdu = coap_peek_next( ctx ); }`; `none` means that
the fuel ran out. -/
def retransmit_loop (K : coap_h) (now : Int) : Nat → loop_state → Option loop_state
  | 0, _ => none
  | fuel + 1, s =>
    match s.nextpdu with
    | some n =>
      if n.t ≤ now then
        let popped := coap_pop_next s.ctx
        let ctx := coap_retransmit K now popped.2 popped.1
        retransmit_loop K now fuel ⟨ctx, coap_peek_next ctx, s.log ++ [(s.nextpdu, popped.1)]⟩
      else some s
    | none => some s

/-- A `struct timeval`; `tv_sec` is a `time_t`. -/
structure timeval where
  tv_sec : Int
  tv_usec : Int
deriving DecidableEq, Repr

/-- The timeout handed to `select`: `if ( nextpdu ) { tv.tv_usec = 0; tv.tv_sec =
nextpdu->t - now; timeout = &tv; } else timeout = NULL;`.  The difference is
computed and stored in `time_t`. -/
def select_timeout (nextpdu : Option coap_queue_t) (now : Int) : Option timeval :=
  match nextpdu with
  | some n => some { tv_usec := 0, tv_sec := time_t_wrap (n.t - now) }
  | none => none

/-- What one pass of the event loop has computed when it calls `select`. -/
structure wait_state where
  ctx : coap_context_t
  timeout : Option timeval
  log : List (Option coap_queue_t × Option coap_queue_t)
deriving DecidableEq, Repr

/-- One pass of the event loop of `main` from `coap_peek_next` down to the
computation of the timeout, with `now` the value `time` stores. -/
def main_loop_pass (K : coap_h) (now : Int) (fuel : Nat) (ctx : coap_context_t) :
    Option wait_state :=
  let nextpdu := coap_peek_next ctx
  match retransmit_loop K now fuel ⟨ctx, nextpdu, []⟩ with
  | some s => some ⟨s.ctx, select_timeout s.nextpdu now, s.log⟩
  | none => none

/-- Decimal value of a run of digit bytes. -/
def decimal (ds : List Nat) : Nat :=
  ds.foldl (fun a d => a * 10 + (d - ch '0')) 0

/-- The digit loop, step by step in `unsigned short` arithmetic. -/
def port_fold (acc : Nat) (ds : List Nat) : Nat :=
  ds.foldl (fun a d => ((a * 10) % 65536 + (d - ch '0')) % 65536) acc

/-- Sample values for the constants of `coap.h`. -/
def sample_consts : coap_h := ⟨0, 1, 2, 3, 61616, 4⟩

/-- A queue whose only transaction is scheduled at the largest `time_t` value. -/
def far_ctx : coap_context_t :=
  ⟨[⟨9223372036854775807, 0, 1, 1⟩]⟩

/-- The optional `":" PORT` part of an authority. -/
def port_text (port : Option (List Nat)) : List Nat :=
  match port with
  | none => []
  | some ds => ch ':' :: ds

/-- The optional `"/" PATH` part of a URI. -/
def path_text (path : Option (List Nat)) : List Nat :=
  match path with
  | none => []
  | some pa => ch '/' :: pa

/-- The text `"coap://[" ADDR "]" [":" PORT] ["/" PATH]`. -/
def bracket_uri (addr : List Nat) (port path : Option (List Nat)) : List Nat :=
  bytes "coap://[" ++ addr ++ [ch ']'] ++ port_text port ++ path_text path

/-- The text `"coap://" HOST [":" PORT] ["/" PATH]`. -/
def host_uri (host : List Nat) (port path : Option (List Nat)) : List Nat :=
  bytes "coap://" ++ host ++ port_text port ++ path_text path

/-- Relation between a buffer and a later state of it in which some bytes that are
no digits have been overwritten with NUL. -/
def cleared (a b : List Nat) : Prop :=
  List.Forall₂ (fun x y => y = x ∨ (y = 0 ∧ isdigit x = false)) a b

/-! ## Facts about the memory model -/

theorem bind_ok {α β : Type} (a : α) (f : α → Res β) : (Res.ok a >>= f) = f a := rfl

theorem bind_fault {α β : Type} (e : Fault) (f : α → Res β) :
    (Res.fault e >>= f) = Res.fault e := rfl

theorem pure_eq_ok {α : Type} (a : α) : (pure a : Res α) = Res.ok a := rfl

theorem drop_eq_cons {mem : List Nat} {p c : Nat} {rest : List Nat}
    (h : mem.drop p = c :: rest) : mem[p]? = some c ∧ mem.drop (p + 1) = rest := by
  induction mem generalizing p with
  | nil => simp at h
  | cons x xs ih =>
    cases p with
    | zero => simp at h; simp [h]
    | succ k => simp at h; simpa using ih h

theorem cstr_from_nil {l : List Nat} (h : cstr_from l = some []) :
    ∃ rest, l = 0 :: rest := by
  cases l with
  | nil => simp [cstr_from] at h
  | cons c rest =>
    by_cases hc : c = 0
    · exact ⟨rest, by rw [hc]⟩
    · simp [cstr_from, hc] at h

theorem cstr_from_cons {l u : List Nat} {c : Nat} (h : cstr_from l = some (c :: u)) :
    ∃ rest, l = c :: rest ∧ c ≠ 0 ∧ cstr_from rest = some u := by
  cases l with
  | nil => simp [cstr_from] at h
  | cons d rest =>
    by_cases hd : d = 0
    · simp [cstr_from, hd] at h
    · simp only [cstr_from, hd, if_false, Option.map_eq_some'] at h
      obtain ⟨a, ha, hcons⟩ := h
      simp only [List.cons.injEq] at hcons
      obtain ⟨h1, h2⟩ := hcons
      subst h1 h2
      exact ⟨rest, rfl, hd, ha⟩

theorem cstr_from_take {l u : List Nat} (h : cstr_from l = some u) :
    l.take u.length = u := by
  induction u generalizing l with
  | nil => simp
  | cons c u ih =>
    obtain ⟨rest, hl, _, hrest⟩ := cstr_from_cons h
    subst hl
    simp [ih hrest]

theorem cstring_spec {mem u : List Nat} {p : Nat} (h : cstring mem p = some u) :
    p < mem.length ∧ cstr_from (mem.drop p) = some u := by
  unfold cstring at h
  by_cases hp : p < mem.length
  · simpa [hp] using h
  · simp [hp] at h

theorem cstring_nil {mem : List Nat} {p : Nat} (h : cstring mem p = some []) :
    rd mem p = .ok 0 := by
  obtain ⟨rest, hr⟩ := cstr_from_nil (cstring_spec h).2
  simp [rd, (drop_eq_cons hr).1]

theorem cstring_cons {mem u : List Nat} {p c : Nat} (h : cstring mem p = some (c :: u)) :
    rd mem p = .ok c ∧ c ≠ 0 ∧ cstring mem (p + 1) = some u := by
  obtain ⟨rest, hr, hc, hu⟩ := cstr_from_cons (cstring_spec h).2
  obtain ⟨h1, h2⟩ := drop_eq_cons hr
  refine ⟨by simp [rd, h1], hc, ?_⟩
  have hlen : p + 1 < mem.length := by
    by_contra hcon
    have : mem.drop (p + 1) = [] := List.drop_eq_nil_of_le (by omega)
    rw [this] at h2
    subst h2
    simp [cstr_from] at hu
  simp [cstring, hlen, h2, hu]

theorem cstring_take {mem u : List Nat} {p : Nat} (h : cstring mem p = some u) :
    (mem.drop p).take u.length = u :=
  cstr_from_take (cstring_spec h).2

theorem strlen_of_cstring {mem u : List Nat} {p : Nat} (h : cstring mem p = some u) :
    strlen mem p = .ok u.length := by
  simp [strlen, h]

theorem drop_append_at {pre l : List Nat} {p : Nat} (hp : pre.length = p) :
    (pre ++ l).drop p = l := by
  subst hp
  simp

theorem set_append_at {pre l : List Nat} {p c v : Nat} (hp : pre.length = p) :
    (pre ++ c :: l).set p v = pre ++ v :: l := by
  subst hp
  induction pre with
  | nil => rfl
  | cons x xs ih => simp [ih]

theorem rd_of_drop {mem : List Nat} {p c : Nat} {rest : List Nat}
    (h : mem.drop p = c :: rest) : rd mem p = .ok c := by
  simp [rd, (drop_eq_cons h).1]

theorem rd_append_at {pre l : List Nat} {p c : Nat} (hp : pre.length = p) :
    rd (pre ++ c :: l) p = .ok c :=
  rd_of_drop (drop_append_at hp)

theorem wr_append_at {pre l : List Nat} {p c v : Nat} (hp : pre.length = p) :
    wr (pre ++ c :: l) p v = .ok (pre ++ v :: l) := by
  have hlt : p < (pre ++ c :: l).length := by
    subst hp
    simp
  unfold wr
  rw [if_pos hlt, set_append_at hp]

/-- The scanning loop stops on the first NUL or stop byte behind a run of other
bytes. -/
theorem scan_until_spec (stop : Nat) (mem : List Nat) (mid : List Nat) :
    ∀ (fuel p c : Nat) (rest : List Nat), mem.drop p = mid ++ c :: rest →
      (∀ x ∈ mid, x ≠ 0 ∧ x ≠ stop) → (c = 0 ∨ c = stop) → mid.length < fuel →
      scan_until stop mem fuel p = .ok (p + mid.length) := by
  induction mid with
  | nil =>
    intro fuel p c rest hdrop _ hc hfuel
    cases fuel with
    | zero => simp at hfuel
    | succ fuel =>
      have hcond : ¬ (c ≠ 0 ∧ c ≠ stop) := by
        rcases hc with hc | hc <;> simp [hc]
      simp [scan_until, rd_of_drop hdrop, bind_ok, pure_eq_ok, hcond]
  | cons x xs ih =>
    intro fuel p c rest hdrop hmid hc hfuel
    cases fuel with
    | zero => simp at hfuel
    | succ fuel =>
      have hx := hmid x (List.mem_cons_self x xs)
      have hnext := ih fuel (p + 1) c rest (drop_eq_cons hdrop).2
        (fun y hy => hmid y (List.mem_cons_of_mem x hy)) hc (by simpa using hfuel)
      simp only [scan_until, rd_of_drop hdrop, bind_ok]
      rw [if_pos hx, hnext]
      simp only [List.length_cons]
      congr 1
      omega

theorem port_fold_mod (ds : List Nat) :
    ∀ a b : Nat, a % 65536 = b % 65536 →
      port_fold a ds % 65536 = ds.foldl (fun a d => a * 10 + (d - ch '0')) b % 65536 := by
  induction ds with
  | nil => intro a b h; simpa [port_fold] using h
  | cons d ds ih =>
    intro a b h
    simp only [port_fold, List.foldl_cons] at ih ⊢
    apply ih
    omega

theorem port_fold_lt (ds : List Nat) : ∀ a : Nat, a < 65536 → port_fold a ds < 65536 := by
  induction ds with
  | nil => intro a h; simpa [port_fold] using h
  | cons d ds ih =>
    intro a _
    simp only [port_fold, List.foldl_cons] at ih ⊢
    apply ih
    omega

theorem port_fold_eq_decimal (ds : List Nat) : port_fold 0 ds = decimal ds % 65536 := by
  have h1 := port_fold_mod ds 0 0 rfl
  have h2 := port_fold_lt ds 0 (by omega)
  rw [Nat.mod_eq_of_lt h2] at h1
  exact h1

/-- The digit loop consumes a run of digits that ends in a byte that is no digit. -/
theorem port_loop_spec (mem : List Nat) (ds : List Nat) :
    ∀ (fuel p c acc : Nat) (rest : List Nat), mem.drop p = ds ++ c :: rest →
      (∀ d ∈ ds, isdigit d = true) → isdigit c = false → ds.length < fuel →
      port_loop mem fuel p acc = .ok (port_fold acc ds) := by
  induction ds with
  | nil =>
    intro fuel p c acc rest hdrop _ hc hfuel
    cases fuel with
    | zero => simp at hfuel
    | succ fuel => simp [port_loop, rd_of_drop hdrop, bind_ok, pure_eq_ok, hc, port_fold]
  | cons d ds ih =>
    intro fuel p c acc rest hdrop hds hc hfuel
    cases fuel with
    | zero => simp at hfuel
    | succ fuel =>
      have hd := hds d (List.mem_cons_self d ds)
      have hnext := ih fuel (p + 1) c ((acc * 10 % 65536 + (d - ch '0')) % 65536) rest
        (drop_eq_cons hdrop).2 (fun y hy => hds y (List.mem_cons_of_mem d hy)) hc
        (by simpa using hfuel)
      simp only [port_loop, rd_of_drop hdrop, bind_ok, hd, if_true]
      rw [hnext]
      simp [port_fold]

/-- On a NUL-terminated string `strncmp_eq` decides whether the string begins with
the literal. -/
theorem strncmp_eq_spec (mem : List Nat) (lit : List Nat) (hlit : 0 ∉ lit) :
    ∀ (p : Nat) (t : List Nat), mem.drop p = t ++ [0] →
      strncmp_eq mem p lit = .ok (decide (t.take lit.length = lit)) := by
  induction lit with
  | nil => intro p t _; simp [strncmp_eq, pure_eq_ok]
  | cons c lit ih =>
    intro p t hdrop
    have hc : c ≠ 0 := fun h => hlit (by simp [h])
    have hlit2 : 0 ∉ lit := fun h => hlit (List.mem_cons_of_mem c h)
    cases t with
    | nil =>
      have hne : ¬ (0 = c) := fun h => hc h.symm
      simp [strncmp_eq, rd_of_drop hdrop, bind_ok, pure_eq_ok, hne]
    | cons x t =>
      have hd : mem.drop p = x :: (t ++ [0]) := by simpa using hdrop
      by_cases hx : x = c
      · simp [strncmp_eq, rd_of_drop hd, bind_ok, hx, ih hlit2 (p + 1) t (drop_eq_cons hd).2]
      · simp [strncmp_eq, rd_of_drop hd, bind_ok, pure_eq_ok, hx]

theorem strncmp_eq_self (mem : List Nat) (lit : List Nat) :
    ∀ (p : Nat) (tail : List Nat), mem.drop p = lit ++ tail →
      strncmp_eq mem p lit = .ok true := by
  induction lit with
  | nil => intro p tail _; rfl
  | cons c lit ih =>
    intro p tail hdrop
    have hd : mem.drop p = c :: (lit ++ tail) := by simpa using hdrop
    simp [strncmp_eq, rd_of_drop hd, bind_ok, ih (p + 1) tail (drop_eq_cons hd).2]

theorem cstr_from_append (u rest : List Nat) (hu : 0 ∉ u) :
    cstr_from (u ++ 0 :: rest) = some u := by
  induction u with
  | nil => simp [cstr_from]
  | cons x xs ih =>
    have hx : x ≠ 0 := fun h => hu (by simp [h])
    have hxs : 0 ∉ xs := fun h => hu (List.mem_cons_of_mem x h)
    simp [cstr_from, hx, ih hxs]

theorem cstring_at {mem u rest : List Nat} {p : Nat} (hdrop : mem.drop p = u ++ 0 :: rest)
    (hu : 0 ∉ u) : cstring mem p = some u := by
  have hlt : p < mem.length := by
    by_contra hcon
    have : mem.drop p = [] := List.drop_eq_nil_of_le (by omega)
    rw [this] at hdrop
    simp at hdrop
  simp [cstring, hlt, hdrop, cstr_from_append u rest hu]

/-- The path part of `split_uri` on a buffer whose authority `mid` ends in a NUL or
a separator `c`. -/
theorem split_uri_path_spec (pre mid rest : List Nat) (c : Nat)
    (hmid : ∀ x ∈ mid, x ≠ 0 ∧ x ≠ ch '/') (hc : c = 0 ∨ c = ch '/') :
    split_uri_path (pre ++ (mid ++ c :: rest)) pre.length
      = .ok (pre ++ (mid ++ 0 :: rest),
             pre.length + mid.length + (if c = 0 then 0 else 1)) := by
  have hscan := scan_until_spec (ch '/') (pre ++ (mid ++ c :: rest)) mid
    ((pre ++ (mid ++ c :: rest)).length + 1) pre.length c rest (drop_append_at rfl) hmid hc
    (by simp; omega)
  have hshape : pre ++ (mid ++ c :: rest) = (pre ++ mid) ++ c :: rest := by simp
  have hrd : rd (pre ++ (mid ++ c :: rest)) (pre.length + mid.length) = .ok c := by
    rw [hshape]
    exact rd_append_at (by simp)
  have hwr : wr (pre ++ (mid ++ c :: rest)) (pre.length + mid.length) 0
      = .ok (pre ++ (mid ++ 0 :: rest)) := by
    rw [hshape, wr_append_at (by simp)]
    simp
  simp only [split_uri_path, hscan, bind_ok, hrd]
  by_cases h0 : c = 0
  · simp [h0, pure_eq_ok]
  · simp [h0, hwr, bind_ok, pure_eq_ok]

/-- The bracketed branch of `split_uri` on an address that is closed by `']'`. -/
theorem split_uri_server_bracket (pre addr rest : List Nat)
    (haddr : ∀ x ∈ addr, x ≠ 0 ∧ x ≠ ch ']') :
    split_uri_server (pre ++ ch '[' :: (addr ++ ch ']' :: rest)) pre.length
      = .ok (pre ++ ch '[' :: (addr ++ 0 :: rest), pre.length + 1,
             pre.length + 1 + addr.length + 1) := by
  have hshape1 : pre ++ ch '[' :: (addr ++ ch ']' :: rest)
      = (pre ++ [ch '[']) ++ (addr ++ ch ']' :: rest) := by simp
  have hshape2 : pre ++ ch '[' :: (addr ++ ch ']' :: rest)
      = (pre ++ ch '[' :: addr) ++ ch ']' :: rest := by simp
  have hscan := scan_until_spec (ch ']') (pre ++ ch '[' :: (addr ++ ch ']' :: rest)) addr
    ((pre ++ ch '[' :: (addr ++ ch ']' :: rest)).length + 1) (pre.length + 1) (ch ']') rest
    (by rw [hshape1]; exact drop_append_at (by simp)) haddr (Or.inr rfl) (by simp; omega)
  have hwr : wr (pre ++ ch '[' :: (addr ++ ch ']' :: rest)) (pre.length + 1 + addr.length) 0
      = .ok (pre ++ ch '[' :: (addr ++ 0 :: rest)) := by
    rw [hshape2, wr_append_at (by simp; omega)]
    simp
  have hrd : rd (pre ++ ch '[' :: (addr ++ ch ']' :: rest)) pre.length = .ok (ch '[') :=
    rd_append_at rfl
  simp only [split_uri_server, hrd, bind_ok, if_true, hscan, hwr, pure_eq_ok]

/-- The host name branch of `split_uri` on a host that ends in a NUL or a colon. -/
theorem split_uri_server_host (pre host rest : List Nat) (c : Nat)
    (hhost : ∀ x ∈ host, x ≠ 0 ∧ x ≠ ch ':') (hfirst : host.head? ≠ some (ch '['))
    (hc : c = 0 ∨ c = ch ':') :
    split_uri_server (pre ++ (host ++ c :: rest)) pre.length
      = .ok (pre ++ (host ++ c :: rest), pre.length, pre.length + host.length) := by
  have hscan := scan_until_spec (ch ':') (pre ++ (host ++ c :: rest)) host
    ((pre ++ (host ++ c :: rest)).length + 1) pre.length c rest (drop_append_at rfl) hhost hc
    (by simp; omega)
  have hrd : ∃ d, rd (pre ++ (host ++ c :: rest)) pre.length = .ok d ∧ d ≠ ch '[' := by
    cases host with
    | nil =>
      refine ⟨c, rd_append_at rfl, ?_⟩
      rcases hc with hc | hc <;> subst hc <;> decide
    | cons x xs =>
      refine ⟨x, rd_append_at rfl, ?_⟩
      intro hx
      exact hfirst (by simp [hx])
  obtain ⟨d, hd, hne⟩ := hrd
  simp only [split_uri_server, hd, bind_ok, hne, if_false, hscan, pure_eq_ok]

theorem split_uri_port_absent (mem : List Nat) (p c port : Nat) (rest : List Nat)
    (hdrop : mem.drop p = c :: rest) (hc : c ≠ ch ':') :
    split_uri_port mem p port = .ok port := by
  simp [split_uri_port, rd_of_drop hdrop, bind_ok, hc, pure_eq_ok]

theorem split_uri_port_present (mem : List Nat) (p c port : Nat) (ds rest : List Nat)
    (hdrop : mem.drop p = ch ':' :: (ds ++ c :: rest))
    (hds : ∀ d ∈ ds, isdigit d = true) (hc : isdigit c = false) :
    split_uri_port mem p port = .ok (decimal ds % 65536) := by
  have hlen : ds.length < mem.length + 1 := by
    have h := congrArg List.length hdrop
    simp at h
    omega
  have hloop := port_loop_spec mem ds (mem.length + 1) (p + 1) c 0 rest
    (drop_eq_cons hdrop).2 hds hc hlen
  simp [split_uri_port, rd_of_drop hdrop, bind_ok, hloop, port_fold_eq_decimal]

theorem isdigit_ne {d : Nat} (h : isdigit d = true) :
    d ≠ 0 ∧ d ≠ ch '/' ∧ d ≠ ch ':' ∧ d ≠ ch ']' := by
  simp only [isdigit, decide_eq_true_eq] at h
  have h1 : ch '/' = 47 := rfl
  have h2 : ch ':' = 58 := rfl
  have h3 : ch ']' = 93 := rfl
  omega

theorem port_text_clean (port : Option (List Nat))
    (hport : ∀ ds, port = some ds → ∀ d ∈ ds, isdigit d = true) :
    ∀ x ∈ port_text port, x ≠ 0 ∧ x ≠ ch '/' := by
  cases port with
  | none => simp [port_text]
  | some ds =>
    intro x hx
    simp only [port_text, List.mem_cons] at hx
    rcases hx with hx | hx
    · subst hx; decide
    · have := isdigit_ne (hport ds rfl x hx)
      exact ⟨this.1, this.2.1⟩

/-- The port test behind an authority whose port part is `port_text port` and which
ends in NUL. -/
theorem split_uri_port_text (mem : List Nat) (p dflt : Nat) (port : Option (List Nat))
    (rest : List Nat) (hdrop : mem.drop p = port_text port ++ 0 :: rest)
    (hport : ∀ ds, port = some ds → ∀ d ∈ ds, isdigit d = true) :
    split_uri_port mem p dflt = .ok
      (match port with
       | none => dflt
       | some ds => decimal ds % 65536) := by
  cases port with
  | none =>
    exact split_uri_port_absent mem p 0 dflt rest (by simpa [port_text] using hdrop) (by decide)
  | some ds =>
    exact split_uri_port_present mem p 0 dflt ds rest (by simpa [port_text] using hdrop)
      (hport ds rfl) (by decide)

/-- Absolute URI with a bracketed address: the state `split_uri` ends in. -/
theorem split_uri_bracket_core (K : coap_h) (addr A rest : List Nat) (c port : Nat)
    (server : Option Nat)
    (haddr : ∀ x ∈ addr, x ≠ 0 ∧ x ≠ ch ']' ∧ x ≠ ch '/')
    (hA : ∀ x ∈ A, x ≠ 0 ∧ x ≠ ch '/') (hc : c = 0 ∨ c = ch '/')
    (hport : split_uri_port (bytes "coap://" ++ ch '[' :: (addr ++ 0 :: (A ++ 0 :: rest)))
      (7 + 1 + addr.length + 1) (K.COAP_DEFAULT_PORT % 65536) = .ok port) :
    split_uri K (bytes "coap://" ++ ((ch '[' :: (addr ++ ch ']' :: A)) ++ c :: rest)) server
      = .ok ⟨bytes "coap://" ++ ch '[' :: (addr ++ 0 :: (A ++ 0 :: rest)), some (7 + 1), port,
          some (7 + (ch '[' :: (addr ++ ch ']' :: A)).length + (if c = 0 then 0 else 1))⟩ := by
  have hS : (bytes "coap://").length = 7 := by decide
  have h1 := strncmp_eq_self
    (bytes "coap://" ++ ((ch '[' :: (addr ++ ch ']' :: A)) ++ c :: rest)) (bytes "coap://") 0
    ((ch '[' :: (addr ++ ch ']' :: A)) ++ c :: rest) rfl
  have hmid : ∀ x ∈ ch '[' :: (addr ++ ch ']' :: A), x ≠ 0 ∧ x ≠ ch '/' := by
    intro x hx
    simp only [List.mem_cons, List.mem_append] at hx
    rcases hx with hx | hx | hx | hx
    · subst hx; decide
    · exact ⟨(haddr x hx).1, (haddr x hx).2.2⟩
    · subst hx; decide
    · exact hA x hx
  have h2 := split_uri_path_spec (bytes "coap://") (ch '[' :: (addr ++ ch ']' :: A)) rest c
    hmid hc
  have h3 := split_uri_server_bracket (bytes "coap://") addr (A ++ 0 :: rest)
    (fun x hx => ⟨(haddr x hx).1, (haddr x hx).2.1⟩)
  have hshape : bytes "coap://" ++ ((ch '[' :: (addr ++ ch ']' :: A)) ++ 0 :: rest)
      = bytes "coap://" ++ ch '[' :: (addr ++ ch ']' :: (A ++ 0 :: rest)) := by simp
  rw [hS] at h2 h3
  rw [hshape] at h2
  simp only [split_uri, h1, bind_ok, split_uri_authority, h2, h3, if_true, hport, pure_eq_ok]

theorem bind_eq_ok {α β : Type} (r : Res α) (f : α → Res β) (b : β) :
    (r >>= f) = .ok b ↔ ∃ a, r = .ok a ∧ f a = .ok b := by
  cases r with
  | ok a => simp [bind_ok]
  | fault e => simp [bind_fault]

theorem rd_eq_ok {mem : List Nat} {p c : Nat} : rd mem p = .ok c ↔ mem[p]? = some c := by
  unfold rd
  cases h : mem[p]? <;> simp

theorem wr_eq_ok {mem m : List Nat} {p v : Nat} (h : wr mem p v = .ok m) :
    m = mem.set p v := by
  unfold wr at h
  split at h
  · simpa using h.symm
  · simp at h

theorem cleared_refl (a : List Nat) : cleared a a :=
  List.forall₂_same.2 (fun _ _ => Or.inl rfl)

theorem cleared_trans {a b c : List Nat} (h1 : cleared a b) (h2 : cleared b c) :
    cleared a c := by
  unfold cleared at *
  induction h1 generalizing c with
  | nil => cases h2; exact List.Forall₂.nil
  | cons hxy _ ih =>
    cases h2 with
    | cons hyz htl =>
      refine List.Forall₂.cons ?_ (ih htl)
      rcases hyz with hyz | ⟨hz, hy⟩
      · rw [hyz]; exact hxy
      · rcases hxy with hxy | ⟨_, hx⟩
        · exact Or.inr ⟨hz, by rw [← hxy]; exact hy⟩
        · exact Or.inr ⟨hz, hx⟩

theorem cleared_set (a : List Nat) :
    ∀ (q c : Nat), a[q]? = some c → isdigit c = false → cleared a (a.set q 0) := by
  induction a with
  | nil => intro q c h; simp at h
  | cons x xs ih =>
    intro q c h hc
    cases q with
    | zero =>
      simp only [List.getElem?_cons_zero, Option.some.injEq] at h
      subst h
      exact List.Forall₂.cons (Or.inr ⟨rfl, hc⟩) (cleared_refl xs)
    | succ q =>
      simp only [List.getElem?_cons_succ] at h
      exact List.Forall₂.cons (Or.inl rfl) (ih q c h hc)

theorem cleared_drop {a b : List Nat} (h : cleared a b) (k : Nat) :
    cleared (a.drop k) (b.drop k) :=
  List.forall₂_drop k h

theorem cleared_digits {a b : List Nat} (h : cleared a b) :
    b.takeWhile isdigit = a.takeWhile isdigit := by
  unfold cleared at h
  induction h with
  | nil => rfl
  | cons hxy _ ih =>
    rcases hxy with hxy | ⟨hy, hx⟩
    · subst hxy
      simp [List.takeWhile_cons, ih]
    · subst hy
      have h0 : isdigit 0 = false := by decide
      simp [List.takeWhile_cons, hx, h0]

theorem scan_until_stop (stop : Nat) (mem : List Nat) :
    ∀ (fuel p q : Nat), scan_until stop mem fuel p = .ok q →
      ∃ c, mem[q]? = some c ∧ (c = 0 ∨ c = stop) := by
  intro fuel
  induction fuel with
  | zero => intro p q h; simp [scan_until] at h
  | succ fuel ih =>
    intro p q h
    simp only [scan_until, bind_eq_ok] at h
    obtain ⟨c, hc, hrest⟩ := h
    by_cases hcond : c ≠ 0 ∧ c ≠ stop
    · rw [if_pos hcond] at hrest
      exact ih (p + 1) q hrest
    · rw [if_neg hcond] at hrest
      simp only [pure_eq_ok, Res.ok.injEq] at hrest
      subst hrest
      refine ⟨c, rd_eq_ok.1 hc, ?_⟩
      by_cases h0 : c = 0
      · exact Or.inl h0
      · right
        by_contra hs
        exact hcond ⟨h0, hs⟩

theorem split_uri_path_cleared {mem m : List Nat} {server path : Nat}
    (h : split_uri_path mem server = .ok (m, path)) : cleared mem m := by
  simp only [split_uri_path, bind_eq_ok] at h
  obtain ⟨q, hq, c, hc, hrest⟩ := h
  obtain ⟨d, hd, hstop⟩ := scan_until_stop _ _ _ _ _ hq
  have hcd : c = d := by
    have := rd_eq_ok.1 hc
    rw [hd] at this
    simpa using this.symm
  subst hcd
  by_cases h0 : c = 0
  · simp only [h0, ne_eq, not_true_eq_false, if_false, pure_eq_ok, Res.ok.injEq,
      Prod.mk.injEq] at hrest
    rw [← hrest.1]
    exact cleared_refl mem
  · rw [if_pos h0] at hrest
    simp only [bind_eq_ok, pure_eq_ok, Res.ok.injEq, Prod.mk.injEq] at hrest
    obtain ⟨m1, hm1, hm, _⟩ := hrest
    rw [← hm, wr_eq_ok hm1]
    refine cleared_set mem q c hd ?_
    rcases hstop with hstop | hstop
    · exact absurd hstop h0
    · rw [hstop]; decide

theorem split_uri_server_cleared {mem m : List Nat} {server sv p : Nat}
    (h : split_uri_server mem server = .ok (m, sv, p)) : cleared mem m := by
  simp only [split_uri_server, bind_eq_ok] at h
  obtain ⟨c, _, hrest⟩ := h
  by_cases hb : c = ch '['
  · rw [if_pos hb] at hrest
    simp only [bind_eq_ok, pure_eq_ok, Res.ok.injEq, Prod.mk.injEq] at hrest
    obtain ⟨q, hq, m1, hm1, hm, _⟩ := hrest
    obtain ⟨d, hd, hstop⟩ := scan_until_stop _ _ _ _ _ hq
    rw [← hm, wr_eq_ok hm1]
    refine cleared_set mem q d hd ?_
    rcases hstop with hstop | hstop <;> rw [hstop] <;> decide
  · rw [if_neg hb] at hrest
    simp only [bind_eq_ok, pure_eq_ok, Res.ok.injEq, Prod.mk.injEq] at hrest
    obtain ⟨q, _, hm, _⟩ := hrest
    rw [← hm]
    exact cleared_refl mem

theorem split_uri_authority_cleared {mem : List Nat} {st : authority_state}
    (h : split_uri_authority mem = .ok st) : cleared mem st.mem := by
  simp only [split_uri_authority, bind_eq_ok] at h
  obtain ⟨⟨m1, path⟩, h1, ⟨m2, sv, p⟩, h2, hst⟩ := h
  simp only [pure_eq_ok, Res.ok.injEq] at hst
  subst hst
  exact cleared_trans (split_uri_path_cleared h1) (split_uri_server_cleared h2)

theorem digits_then_stop (l : List Nat) :
    ∃ c rest, l ++ [0] = (l ++ [0]).takeWhile isdigit ++ c :: rest ∧ isdigit c = false := by
  induction l with
  | nil => exact ⟨0, [], by decide, by decide⟩
  | cons x xs ih =>
    by_cases hx : isdigit x = true
    · obtain ⟨c, rest, h1, h2⟩ := ih
      refine ⟨c, rest, ?_, h2⟩
      simp only [List.cons_append, List.takeWhile_cons, hx, if_true]
      exact congrArg (x :: ·) h1
    · refine ⟨x, xs ++ [0], ?_, by simpa using hx⟩
      simp [List.takeWhile_cons, hx]

theorem cleared_digits_then_stop (ds : List Nat) (hds : ∀ d ∈ ds, isdigit d = true) :
    ∀ (c : Nat) (rest b : List Nat), isdigit c = false → cleared (ds ++ c :: rest) b →
      ∃ c' rest', b = ds ++ c' :: rest' ∧ isdigit c' = false := by
  induction ds with
  | nil =>
    intro c rest b hc h
    simp only [List.nil_append] at h
    obtain ⟨y, tl, hxy, _, hb⟩ := List.forall₂_cons_left_iff.1 h
    refine ⟨y, tl, hb, ?_⟩
    rcases hxy with hxy | ⟨hy, _⟩
    · rw [hxy]; exact hc
    · rw [hy]; decide
  | cons d ds ih =>
    intro c rest b hc h
    simp only [List.cons_append] at h
    obtain ⟨y, tl, hxy, htl, hb⟩ := List.forall₂_cons_left_iff.1 h
    have hd := hds d (List.mem_cons_self d ds)
    rcases hxy with hxy | ⟨_, hx⟩
    · obtain ⟨c', rest', h1, h2⟩ :=
        ih (fun z hz => hds z (List.mem_cons_of_mem d hz)) c rest tl hc htl
      exact ⟨c', rest', by rw [hb, hxy, h1]; rfl, h2⟩
    · rw [hd] at hx
      exact absurd hx (by decide)

/-! ## `coap_new_get` builds a confirmable GET -/

theorem coap_new_get_some (K : coap_h) (pdu : coap_pdu_t) (mem u : List Nat) (p : Nat)
    (h : cstring mem p = some u) :
    coap_new_get K (some pdu) mem (some p) = .ok (some
      { hdr := ⟨K.COAP_MESSAGE_CON, K.COAP_REQUEST_GET⟩,
        options := pdu.options ++
          (match u with
           | [] => []
           | c :: v =>
             if c ≠ ch '/' then [⟨K.COAP_OPTION_URI_FULL, u⟩]
             else if v = [] then [] else [⟨K.COAP_OPTION_URI_PATH, v⟩]) }) := by
  cases u with
  | nil =>
    simp [coap_new_get, cstring_nil h, bind_ok, pure_eq_ok]
  | cons c v =>
    obtain ⟨h1, h2, h3⟩ := cstring_cons h
    by_cases hc : c = ch '/'
    · cases v with
      | nil =>
        simp [coap_new_get, h1, h2, hc, cstring_nil h3, bind_ok, pure_eq_ok]
      | cons d w =>
        obtain ⟨k1, k2, _⟩ := cstring_cons h3
        have ht := cstring_take h3
        simp only [List.length_cons] at ht
        simp [coap_new_get, h1, hc, k1, k2, strlen_of_cstring h3, bind_ok,
          pure_eq_ok, coap_add_option, ht]
        simp [ch]
    · have ht := cstring_take h
      simp only [List.length_cons] at ht
      simp [coap_new_get, h1, h2, hc, strlen_of_cstring h, bind_ok, pure_eq_ok,
        coap_add_option, ht]

/-- C1: for a NULL, empty or arbitrary string argument, `coap_new_get` returns NULL
and adds nothing when `coap_new_pdu` fails, and otherwise returns a PDU of type
Confirmable with code GET. -/
theorem coap_new_get_header (K : coap_h) (mem : List Nat) (uri : Option Nat)
    (hwf : ∀ p, uri = some p → ∃ u, cstring mem p = some u) :
    coap_new_get K none mem uri = .ok none ∧
    ∀ pdu : coap_pdu_t, ∃ r, coap_new_get K (some pdu) mem uri = .ok (some r) ∧
      r.hdr.type = K.COAP_MESSAGE_CON ∧ r.hdr.code = K.COAP_REQUEST_GET := by
  refine ⟨rfl, fun pdu => ?_⟩
  cases uri with
  | none => exact ⟨_, rfl, rfl, rfl⟩
  | some p =>
    obtain ⟨u, hu⟩ := hwf p rfl
    exact ⟨_, coap_new_get_some K pdu mem u p hu, rfl, rfl⟩

theorem coap_new_get_header_witness :
    (∀ p, some 0 = some p → ∃ u, cstring (cbuf "/a/b") p = some u) ∧
    (coap_new_get sample_consts none (cbuf "/a/b") (some 0) = .ok none ∧
     ∀ pdu : coap_pdu_t, ∃ r,
      coap_new_get sample_consts (some pdu) (cbuf "/a/b") (some 0) = .ok (some r) ∧
      r.hdr.type = sample_consts.COAP_MESSAGE_CON ∧
      r.hdr.code = sample_consts.COAP_REQUEST_GET) :=
  have hwf : ∀ p, some 0 = some p → ∃ u, cstring (cbuf "/a/b") p = some u := by
    intro p hp
    cases hp
    exact ⟨bytes "a/b" |>.cons (ch '/'), by decide⟩
  ⟨hwf, coap_new_get_header sample_consts (cbuf "/a/b") (some 0) hwf⟩

/-- C2: for a non-empty fragment `u`, `coap_new_get` adds `COAP_OPTION_URI_FULL` with
value `u` when `u` does not begin with the separator, and `COAP_OPTION_URI_PATH`
with value `u` minus its first byte when `u` begins with the separator and has
further bytes. -/
theorem coap_new_get_option (K : coap_h) (pdu : coap_pdu_t) (mem u : List Nat) (p : Nat)
    (h : cstring mem p = some u) (hne : u ≠ []) :
    (u.head? ≠ some (ch '/') →
      strlen mem p = .ok u.length ∧
      coap_new_get K (some pdu) mem (some p) = .ok (some
        { hdr := ⟨K.COAP_MESSAGE_CON, K.COAP_REQUEST_GET⟩,
          options := pdu.options ++ [⟨K.COAP_OPTION_URI_FULL, u⟩] })) ∧
    (∀ v, u = ch '/' :: v → v ≠ [] →
      strlen mem (p + 1) = .ok (u.length - 1) ∧
      coap_new_get K (some pdu) mem (some p) = .ok (some
        { hdr := ⟨K.COAP_MESSAGE_CON, K.COAP_REQUEST_GET⟩,
          options := pdu.options ++ [⟨K.COAP_OPTION_URI_PATH, v⟩] })) := by
  have key := coap_new_get_some K pdu mem u p h
  constructor
  · intro hhead
    refine ⟨strlen_of_cstring h, ?_⟩
    cases u with
    | nil => exact absurd rfl hne
    | cons c v =>
      have hc : c ≠ ch '/' := by simpa using hhead
      simpa [hc] using key
  · intro v hv hvne
    subst hv
    refine ⟨?_, ?_⟩
    · simpa using strlen_of_cstring (cstring_cons h).2.2
    · simpa [hvne] using key

theorem coap_new_get_option_witness :
    cstring (cbuf "/ab") 0 = some (bytes "/ab") ∧ bytes "/ab" ≠ [] ∧
    ∀ v, bytes "/ab" = ch '/' :: v → v ≠ [] →
      strlen (cbuf "/ab") (0 + 1) = .ok ((bytes "/ab").length - 1) ∧
      coap_new_get sample_consts (some ⟨⟨7, 7⟩, []⟩) (cbuf "/ab") (some 0) = .ok (some
        { hdr := ⟨sample_consts.COAP_MESSAGE_CON, sample_consts.COAP_REQUEST_GET⟩,
          options := [] ++ [⟨sample_consts.COAP_OPTION_URI_PATH, v⟩] }) :=
  ⟨by decide, by decide,
    (coap_new_get_option sample_consts ⟨⟨7, 7⟩, []⟩ (cbuf "/ab") (bytes "/ab") 0
      (by decide) (by decide)).2⟩

/-- C3 (as stated, refuted): the fragment consisting of the separator alone is not
empty, yet `coap_new_get` adds no option for it. -/
theorem coap_new_get_lone_separator :
    cstring (cbuf "/") 0 = some [ch '/'] ∧ [ch '/'] ≠ [] ∧
    coap_new_get sample_consts (some ⟨⟨7, 7⟩, []⟩) (cbuf "/") (some 0)
      = .ok (some ⟨⟨sample_consts.COAP_MESSAGE_CON, sample_consts.COAP_REQUEST_GET⟩, []⟩) := by
  decide

/-- C3 (amended): for a non-empty fragment other than the lone separator exactly one
option is added to the new PDU; for a NULL fragment, an empty fragment and the
lone separator no option is added. -/
theorem coap_new_get_option_count (K : coap_h) (pdu : coap_pdu_t) (mem : List Nat) :
    (∃ r, coap_new_get K (some pdu) mem none = .ok (some r) ∧ r.options = pdu.options) ∧
    ∀ p u, cstring mem p = some u →
      ∃ r, coap_new_get K (some pdu) mem (some p) = .ok (some r) ∧
        ((u = [] ∨ u = [ch '/']) → r.options = pdu.options) ∧
        (¬ (u = [] ∨ u = [ch '/']) → ∃ o, r.options = pdu.options ++ [o]) := by
  refine ⟨⟨_, rfl, rfl⟩, fun p u h => ⟨_, coap_new_get_some K pdu mem u p h, ?_, ?_⟩⟩
  · rintro (hu | hu) <;> subst hu <;> simp
  · intro hu
    cases u with
    | nil => simp at hu
    | cons c v =>
      by_cases hc : c = ch '/'
      · have hv : v ≠ [] := by
          intro hv
          exact hu (Or.inr (by rw [hc, hv]))
        exact ⟨⟨K.COAP_OPTION_URI_PATH, v⟩, by simp [hc, hv]⟩
      · exact ⟨⟨K.COAP_OPTION_URI_FULL, c :: v⟩, by simp [hc]⟩

theorem coap_new_get_option_count_witness :
    cstring (cbuf "abc") 0 = some (bytes "abc") ∧
    ∃ r, coap_new_get sample_consts (some ⟨⟨7, 7⟩, []⟩) (cbuf "abc") (some 0) = .ok (some r) ∧
      ((bytes "abc" = [] ∨ bytes "abc" = [ch '/']) → r.options = []) ∧
      (¬ (bytes "abc" = [] ∨ bytes "abc" = [ch '/']) → ∃ o, r.options = [] ++ [o]) :=
  ⟨by decide,
    (coap_new_get_option_count sample_consts ⟨⟨7, 7⟩, []⟩ (cbuf "abc")).2 0 (bytes "abc")
      (by decide)⟩

/-! ## The retransmission step and the timeout of the event loop -/

theorem time_t_wrap_range (x : Int) :
    -9223372036854775808 ≤ time_t_wrap x ∧ time_t_wrap x < 9223372036854775808 := by
  unfold time_t_wrap
  omega

/-- C4 (as stated, refuted): with `now = -1` and the earliest transaction scheduled
at the largest `time_t` value, the difference `earliest.t - now` is `2^63`, which
no `time_t` holds; the timeout comes out as `-2^63` seconds. -/
theorem main_loop_timeout_overflow :
    main_loop_pass sample_consts (-1) 10 far_ctx
      = some ⟨far_ctx, some ⟨-9223372036854775808, 0⟩, []⟩ ∧
    coap_peek_next far_ctx = some ⟨9223372036854775807, 0, 1, 1⟩ ∧
    (-9223372036854775808 : Int) ≠ 9223372036854775807 - (-1) := by
  decide

/-- C5 (as stated, refuted): with `now = -1` and the only transaction scheduled at
the largest `time_t` value, nothing is due and the step leaves the queue as it
is with its earliest transaction later than `now`, yet the timeout computed is
`-2^63` seconds, which is not at least one second. -/
theorem main_retransmit_step_overflow :
    ∃ w e tv, main_loop_pass sample_consts (-1) 10 far_ctx = some w ∧
      w.log = [] ∧ coap_peek_next w.ctx = some e ∧ -1 < e.t ∧
      w.timeout = some tv ∧ ¬ (1 ≤ tv.tv_sec) :=
  ⟨⟨far_ctx, some ⟨-9223372036854775808, 0⟩, []⟩, ⟨9223372036854775807, 0, 1, 1⟩,
    ⟨-9223372036854775808, 0⟩, by decide, rfl, by decide, by decide, rfl, by decide⟩

/-- C7: an absolute URI `"coap://[" ADDR "]" [":" PORT] ["/" PATH]` whose address has
no `']'` or `'/'` and whose port is a decimal number below 65536 is split into
the address without brackets, the port (the default port when absent) and the
path without its leading `'/'`. -/
theorem split_uri_bracket (K : coap_h) (addr : List Nat) (port path : Option (List Nat))
    (server : Option Nat) (hK : K.COAP_DEFAULT_PORT < 65536)
    (haddr : ∀ x ∈ addr, x ≠ 0 ∧ x ≠ ch ']' ∧ x ≠ ch '/')
    (hport : ∀ ds, port = some ds → (∀ d ∈ ds, isdigit d = true) ∧ decimal ds < 65536)
    (hpath : ∀ pa, path = some pa → 0 ∉ pa) :
    ∃ r, split_uri K (bracket_uri addr port path ++ [0]) server = .ok r ∧
      r.server.bind (cstring r.mem) = some addr ∧
      r.port = (match port with
                | none => K.COAP_DEFAULT_PORT
                | some ds => decimal ds) ∧
      r.path.bind (cstring r.mem) = some (path.getD []) := by
  have hdig : ∀ ds, port = some ds → ∀ d ∈ ds, isdigit d = true := fun ds h => (hport ds h).1
  have hA := port_text_clean port hdig
  -- the separator that ends the authority, and what follows it
  obtain ⟨c, rest, tail, hc, hin, hpathdrop⟩ : ∃ c rest tail, (c = 0 ∨ c = ch '/') ∧
      path_text path ++ [0] = c :: rest ∧
      (0 :: rest).drop (if c = 0 then 0 else 1) = path.getD [] ++ 0 :: tail := by
    cases path with
    | none => exact ⟨0, [], [], Or.inl rfl, rfl, by simp⟩
    | some pa => exact ⟨ch '/', pa ++ [0], [], Or.inr rfl, by simp [path_text], by simp [ch]⟩
  have hportres := split_uri_port_text
    (bytes "coap://" ++ ch '[' :: (addr ++ 0 :: (port_text port ++ 0 :: rest)))
    (7 + 1 + addr.length + 1) (K.COAP_DEFAULT_PORT % 65536) port rest
    (by
      have hshape : bytes "coap://" ++ ch '[' :: (addr ++ 0 :: (port_text port ++ 0 :: rest))
          = (bytes "coap://" ++ ch '[' :: (addr ++ [0])) ++ (port_text port ++ 0 :: rest) := by
        simp
      rw [hshape]
      exact drop_append_at (by simp [bytes]; omega))
    hdig
  have hcore := split_uri_bracket_core K addr (port_text port) rest c _ server haddr hA hc
    hportres
  have hmem : bracket_uri addr port path ++ [0]
      = bytes "coap://" ++ ((ch '[' :: (addr ++ ch ']' :: port_text port)) ++ c :: rest) := by
    have hb : bytes "coap://[" = bytes "coap://" ++ [ch '['] := by decide
    simp only [bracket_uri, hb, List.append_assoc, hin, List.cons_append, List.nil_append,
      List.singleton_append]
  rw [hmem]
  refine ⟨_, hcore, ?_, ?_, ?_⟩
  · simp only [Option.bind]
    have hshape : bytes "coap://" ++ ch '[' :: (addr ++ 0 :: (port_text port ++ 0 :: rest))
        = (bytes "coap://" ++ [ch '[']) ++ (addr ++ 0 :: (port_text port ++ 0 :: rest)) := by
      simp
    rw [hshape]
    exact cstring_at (drop_append_at (by simp [bytes])) (fun h => (haddr 0 h).1 rfl)
  · cases port with
    | none => simp [Nat.mod_eq_of_lt hK]
    | some ds => simp [Nat.mod_eq_of_lt (hport ds rfl).2]
  · simp only [Option.bind]
    have hshape : bytes "coap://" ++ ch '[' :: (addr ++ 0 :: (port_text port ++ 0 :: rest))
        = (bytes "coap://" ++ ch '[' :: (addr ++ 0 :: port_text port)) ++ (0 :: rest) := by
      simp
    have hpos : 7 + (ch '[' :: (addr ++ ch ']' :: port_text port)).length
          + (if c = 0 then 0 else 1)
        = (bytes "coap://" ++ ch '[' :: (addr ++ 0 :: port_text port)).length
          + (if c = 0 then 0 else 1) := by
      simp [bytes]
      omega
    rw [hshape, hpos]
    refine @cstring_at _ _ tail _ ?_ (fun h => ?_)
    · rw [← List.drop_drop, drop_append_at rfl]
      exact hpathdrop
    · cases path with
      | none => simp at h
      | some pa => exact hpath pa rfl (by simpa using h)

theorem split_uri_bracket_witness :
    bracket_uri (bytes "::1") (some (bytes "8080")) (some (bytes "a/b")) ++ [0]
      = cbuf "coap://[::1]:8080/a/b" ∧
    ∃ r, split_uri sample_consts
        (bracket_uri (bytes "::1") (some (bytes "8080")) (some (bytes "a/b")) ++ [0]) none
        = .ok r ∧
      r.server.bind (cstring r.mem) = some (bytes "::1") ∧
      r.port = decimal (bytes "8080") ∧
      r.path.bind (cstring r.mem) = some (bytes "a/b") :=
  ⟨by decide,
    split_uri_bracket sample_consts (bytes "::1") (some (bytes "8080")) (some (bytes "a/b"))
      none (by decide) (by decide)
      (fun ds h => by cases h; exact ⟨by decide, by decide⟩)
      (fun pa h => by cases h; decide)⟩

/-- C8: for an input that does not begin with `"coap://"`, `split_uri` sets the path
to the whole input, the port to the default port, and leaves the server pointer
and every byte of the buffer as they were. -/
theorem split_uri_relative (K : coap_h) (s : List Nat) (server : Option Nat)
    (hK : K.COAP_DEFAULT_PORT < 65536) (hs : 0 ∉ s) (hrel : s.take 7 ≠ bytes "coap://") :
    split_uri K (s ++ [0]) server = .ok ⟨s ++ [0], server, K.COAP_DEFAULT_PORT, some 0⟩ ∧
    cstring (s ++ [0]) 0 = some s := by
  have h1 := strncmp_eq_spec (s ++ [0]) (bytes "coap://") (by decide) 0 s rfl
  have hlen : (bytes "coap://").length = 7 := by decide
  rw [hlen] at h1
  refine ⟨?_, @cstring_at _ _ [] _ rfl hs⟩
  simp [split_uri, h1, bind_ok, hrel, pure_eq_ok, Nat.mod_eq_of_lt hK]

theorem split_uri_relative_witness :
    split_uri sample_consts (bytes "coap:/x/y:80" ++ [0]) (some 3)
      = .ok ⟨bytes "coap:/x/y:80" ++ [0], some 3, sample_consts.COAP_DEFAULT_PORT, some 0⟩ ∧
    cstring (bytes "coap:/x/y:80" ++ [0]) 0 = some (bytes "coap:/x/y:80") :=
  split_uri_relative sample_consts (bytes "coap:/x/y:80") (some 3) (by decide) (by decide)
    (by decide)

/-- C9: when `split_uri` finds a colon at the port test, the port is the decimal
value of the longest run of digits behind the colon, reduced modulo 2^16; the
bytes behind the run play no role, and an empty run gives port 0. -/
theorem split_uri_port_value (K : coap_h) (s : List Nat) (server : Option Nat)
    (st : authority_state) (habs : s.take 7 = bytes "coap://")
    (hauth : split_uri_authority (s ++ [0]) = .ok st)
    (hsep : rd st.mem st.p = .ok (ch ':')) :
    split_uri K (s ++ [0]) server = .ok
      ⟨st.mem, some st.server,
        decimal (((s ++ [0]).drop (st.p + 1)).takeWhile isdigit) % 65536, some st.path⟩ ∧
    ((((s ++ [0]).drop (st.p + 1)).takeWhile isdigit = []) →
      split_uri K (s ++ [0]) server = .ok ⟨st.mem, some st.server, 0, some st.path⟩) := by
  have h1 := strncmp_eq_spec (s ++ [0]) (bytes "coap://") (by decide) 0 s rfl
  have hlen : (bytes "coap://").length = 7 := by decide
  rw [hlen] at h1
  have hcl := split_uri_authority_cleared hauth
  -- the colon is a byte of the input string itself
  have hcolon : st.mem[st.p]? = some (ch ':') := rd_eq_ok.1 hsep
  have hlt : st.p < st.mem.length := by
    by_contra hcon
    rw [List.getElem?_eq_none (by omega)] at hcolon
    simp at hcolon
  have hdropm : st.mem.drop st.p = ch ':' :: st.mem.drop (st.p + 1) := by
    rw [List.drop_eq_getElem_cons hlt]
    congr 1
    rw [List.getElem?_eq_getElem hlt] at hcolon
    simpa using hcolon
  have hcl0 := cleared_drop hcl st.p
  rw [hdropm] at hcl0
  obtain ⟨x, tl, hx, _, hdrops⟩ := List.forall₂_cons_right_iff.1 hcl0
  have hx2 : x = ch ':' := by
    rcases hx with hx | ⟨hx, _⟩
    · exact hx.symm
    · exact absurd hx (by decide)
  subst hx2
  have hps : st.p < s.length := by
    by_contra hcon
    have hge : s.length ≤ st.p := by omega
    have h2 := (drop_eq_cons hdrops).1
    rw [List.getElem?_append_right hge] at h2
    cases hk : st.p - s.length with
    | zero => rw [hk] at h2; simp at h2; exact absurd h2 (by decide)
    | succ k => rw [hk] at h2; simp at h2
  have hsplit : (s ++ [0]).drop (st.p + 1) = s.drop (st.p + 1) ++ [0] :=
    List.drop_append_of_le_length (by omega)
  obtain ⟨c, rest, hdec, hc⟩ := digits_then_stop (s.drop (st.p + 1))
  rw [← hsplit] at hdec
  have hcl1 := cleared_drop hcl (st.p + 1)
  rw [hdec] at hcl1
  obtain ⟨c', rest', hmem1, hc'⟩ := cleared_digits_then_stop _
    (fun d hd => (List.mem_takeWhile_imp hd)) c rest _ hc hcl1
  rw [hmem1] at hdropm
  have hport := split_uri_port_present st.mem st.p c' (K.COAP_DEFAULT_PORT % 65536) _ rest'
    hdropm (fun d hd => (List.mem_takeWhile_imp hd)) hc'
  have hmain : split_uri K (s ++ [0]) server = .ok
      ⟨st.mem, some st.server,
        decimal (((s ++ [0]).drop (st.p + 1)).takeWhile isdigit) % 65536, some st.path⟩ := by
    simp [split_uri, h1, bind_ok, habs, hauth, hport, pure_eq_ok]
  refine ⟨hmain, fun hempty => ?_⟩
  rw [hmain, hempty]
  rfl

theorem split_uri_port_value_witness :
    (bytes "coap://h:70000x/p").take 7 = bytes "coap://" ∧
    split_uri_authority (bytes "coap://h:70000x/p" ++ [0])
      = .ok ⟨cbuf "coap://h:70000x" ++ cbuf "p", 7, 16, 8⟩ ∧
    decimal (((bytes "coap://h:70000x/p" ++ [0]).drop (8 + 1)).takeWhile isdigit) % 65536
      = 4464 ∧
    split_uri sample_consts (bytes "coap://h:70000x/p" ++ [0]) none = .ok
      ⟨cbuf "coap://h:70000x" ++ cbuf "p", some 7,
        decimal (((bytes "coap://h:70000x/p" ++ [0]).drop (8 + 1)).takeWhile isdigit) % 65536,
        some 16⟩ :=
  ⟨by decide, by decide, by decide,
    (split_uri_port_value sample_consts (bytes "coap://h:70000x/p") none
      ⟨cbuf "coap://h:70000x" ++ cbuf "p", 7, 16, 8⟩ (by decide) (by decide) (by decide)).1⟩

/-- What `split_uri` does with `"coap://" HOST [":" PORT] ["/" PATH]` for a host
without `':'`, `'/'` and `'['`: port and path are split off, and the server
string is the host together with the port text, which stays in place. -/
theorem split_uri_host (K : coap_h) (host : List Nat) (port path : Option (List Nat))
    (server : Option Nat) (hK : K.COAP_DEFAULT_PORT < 65536)
    (hhost : ∀ x ∈ host, x ≠ 0 ∧ x ≠ ch ':' ∧ x ≠ ch '/' ∧ x ≠ ch '[')
    (hport : ∀ ds, port = some ds → (∀ d ∈ ds, isdigit d = true) ∧ decimal ds < 65536)
    (hpath : ∀ pa, path = some pa → 0 ∉ pa) :
    ∃ r, split_uri K (host_uri host port path ++ [0]) server = .ok r ∧
      r.server.bind (cstring r.mem) = some (host ++ port_text port) ∧
      r.port = (match port with
                | none => K.COAP_DEFAULT_PORT
                | some ds => decimal ds) ∧
      r.path.bind (cstring r.mem) = some (path.getD []) := by
  have hS : (bytes "coap://").length = 7 := by decide
  have hdig : ∀ ds, port = some ds → ∀ d ∈ ds, isdigit d = true := fun ds h => (hport ds h).1
  have hA := port_text_clean port hdig
  obtain ⟨c, rest, tail, hc, hin, hpathdrop⟩ : ∃ c rest tail, (c = 0 ∨ c = ch '/') ∧
      path_text path ++ [0] = c :: rest ∧
      (0 :: rest).drop (if c = 0 then 0 else 1) = path.getD [] ++ 0 :: tail := by
    cases path with
    | none => exact ⟨0, [], [], Or.inl rfl, rfl, by simp⟩
    | some pa => exact ⟨ch '/', pa ++ [0], [], Or.inr rfl, by simp [path_text], by simp [ch]⟩
  obtain ⟨c', rest', hc', hsep⟩ : ∃ c' rest', (c' = 0 ∨ c' = ch ':') ∧
      port_text port ++ 0 :: rest = c' :: rest' := by
    cases port with
    | none => exact ⟨0, rest, Or.inl rfl, rfl⟩
    | some ds => exact ⟨ch ':', ds ++ 0 :: rest, Or.inr rfl, by simp [port_text]⟩
  have hmid : ∀ x ∈ host ++ port_text port, x ≠ 0 ∧ x ≠ ch '/' := by
    intro x hx
    rcases List.mem_append.1 hx with hx | hx
    · exact ⟨(hhost x hx).1, (hhost x hx).2.2.1⟩
    · exact hA x hx
  have hfirst : host.head? ≠ some (ch '[') := by
    cases host with
    | nil => simp
    | cons x xs =>
      intro h
      simp only [List.head?_cons, Option.some.injEq] at h
      exact (hhost x (List.mem_cons_self x xs)).2.2.2 h
  have h1 := strncmp_eq_self
    (bytes "coap://" ++ ((host ++ port_text port) ++ c :: rest)) (bytes "coap://") 0
    ((host ++ port_text port) ++ c :: rest) rfl
  have h2 := split_uri_path_spec (bytes "coap://") (host ++ port_text port) rest c hmid hc
  have h3 := split_uri_server_host (bytes "coap://") host rest' c'
    (fun x hx => ⟨(hhost x hx).1, (hhost x hx).2.1⟩) hfirst hc'
  have hshape : bytes "coap://" ++ ((host ++ port_text port) ++ 0 :: rest)
      = bytes "coap://" ++ (host ++ c' :: rest') := by
    rw [← hsep]
    simp
  have hportres := split_uri_port_text (bytes "coap://" ++ (host ++ c' :: rest'))
    (7 + host.length) (K.COAP_DEFAULT_PORT % 65536) port rest
    (by
      rw [← hsep, ← List.append_assoc]
      exact drop_append_at (by simp [hS]))
    hdig
  rw [hS] at h2 h3
  rw [hshape] at h2
  have hmem : host_uri host port path ++ [0]
      = bytes "coap://" ++ ((host ++ port_text port) ++ c :: rest) := by
    simp only [host_uri, List.append_assoc, hin]
  have hrun : split_uri K (bytes "coap://" ++ ((host ++ port_text port) ++ c :: rest)) server
      = .ok ⟨bytes "coap://" ++ (host ++ c' :: rest'), some 7,
          (match port with
           | none => K.COAP_DEFAULT_PORT % 65536
           | some ds => decimal ds % 65536),
          some (7 + (host ++ port_text port).length + (if c = 0 then 0 else 1))⟩ := by
    simp only [split_uri, h1, bind_ok, split_uri_authority, h2, h3, if_true, hportres,
      pure_eq_ok]
    cases port <;> rfl
  rw [hmem]
  refine ⟨_, hrun, ?_, ?_, ?_⟩
  · simp only [Option.bind]
    rw [← hsep, ← hS]
    have hshape2 : bytes "coap://" ++ (host ++ (port_text port ++ 0 :: rest))
        = bytes "coap://" ++ ((host ++ port_text port) ++ 0 :: rest) := by simp
    rw [hshape2]
    exact cstring_at (drop_append_at rfl) (fun h => (hmid 0 h).1 rfl)
  · cases port with
    | none => simp [Nat.mod_eq_of_lt hK]
    | some ds => simp [Nat.mod_eq_of_lt (hport ds rfl).2]
  · simp only [Option.bind]
    rw [← hsep]
    have hshape3 : bytes "coap://" ++ (host ++ (port_text port ++ 0 :: rest))
        = (bytes "coap://" ++ (host ++ port_text port)) ++ (0 :: rest) := by simp
    have hpos : 7 + (host ++ port_text port).length + (if c = 0 then 0 else 1)
        = (bytes "coap://" ++ (host ++ port_text port)).length
          + (if c = 0 then 0 else 1) := by
      simp [hS]
    rw [hshape3, hpos]
    refine @cstring_at _ _ tail _ ?_ (fun h => ?_)
    · rw [← List.drop_drop, drop_append_at rfl]
      exact hpathdrop
    · cases path with
      | none => simp at h
      | some pa => exact hpath pa rfl (by simpa using h)

/-! ### The fuel of the loops is never the limit -/

theorem bind_ne_out_of_fuel {α β : Type} (r : Res α) (f : α → Res β)
    (hr : r ≠ .fault .out_of_fuel) (hf : ∀ a, r = .ok a → f a ≠ .fault .out_of_fuel) :
    (r >>= f) ≠ .fault .out_of_fuel := by
  cases r with
  | ok a => exact hf a rfl
  | fault e => simpa [bind_fault] using hr

theorem rd_ne_out_of_fuel (mem : List Nat) (p : Nat) : rd mem p ≠ .fault .out_of_fuel := by
  unfold rd
  cases mem[p]? <;> simp

theorem wr_ne_out_of_fuel (mem : List Nat) (p v : Nat) :
    wr mem p v ≠ .fault .out_of_fuel := by
  unfold wr
  split <;> simp

theorem scan_until_ne_out_of_fuel (stop : Nat) (mem : List Nat) :
    ∀ fuel p, 0 < fuel → mem.length < p + fuel →
      scan_until stop mem fuel p ≠ .fault .out_of_fuel := by
  intro fuel
  induction fuel with
  | zero => intro p h; omega
  | succ fuel ih =>
    intro p _ hlen
    simp only [scan_until]
    refine bind_ne_out_of_fuel _ _ (rd_ne_out_of_fuel mem p) (fun c hc => ?_)
    have hp : p < mem.length := by
      by_contra hcon
      rw [rd_eq_ok, List.getElem?_eq_none (by omega)] at hc
      simp at hc
    split
    · exact ih (p + 1) (by omega) (by omega)
    · simp [pure_eq_ok]

theorem port_loop_ne_out_of_fuel (mem : List Nat) :
    ∀ fuel p port, 0 < fuel → mem.length < p + fuel →
      port_loop mem fuel p port ≠ .fault .out_of_fuel := by
  intro fuel
  induction fuel with
  | zero => intro p port h; omega
  | succ fuel ih =>
    intro p port _ hlen
    simp only [port_loop]
    refine bind_ne_out_of_fuel _ _ (rd_ne_out_of_fuel mem p) (fun c hc => ?_)
    have hp : p < mem.length := by
      by_contra hcon
      rw [rd_eq_ok, List.getElem?_eq_none (by omega)] at hc
      simp at hc
    split
    · exact ih (p + 1) _ (by omega) (by omega)
    · simp [pure_eq_ok]

theorem strncmp_eq_ne_out_of_fuel (mem : List Nat) (lit : List Nat) :
    ∀ p, strncmp_eq mem p lit ≠ .fault .out_of_fuel := by
  induction lit with
  | nil => intro p; simp [strncmp_eq, pure_eq_ok]
  | cons c lit ih =>
    intro p
    simp only [strncmp_eq]
    refine bind_ne_out_of_fuel _ _ (rd_ne_out_of_fuel mem p) (fun x _ => ?_)
    split
    · exact ih (p + 1)
    · simp [pure_eq_ok]

/-- Whatever the buffer, `split_uri` never stops for lack of fuel: the only fault it
can end in is an access outside the buffer. -/
theorem split_uri_ne_out_of_fuel (K : coap_h) (mem : List Nat) (server : Option Nat) :
    split_uri K mem server ≠ .fault .out_of_fuel := by
  simp only [split_uri]
  refine bind_ne_out_of_fuel _ _ (strncmp_eq_ne_out_of_fuel mem _ 0) (fun b _ => ?_)
  split
  · refine bind_ne_out_of_fuel _ _ ?_ (fun a _ => ?_)
    · simp only [split_uri_authority]
      refine bind_ne_out_of_fuel _ _ ?_ (fun a _ => ?_)
      · simp only [split_uri_path]
        refine bind_ne_out_of_fuel _ _
          (scan_until_ne_out_of_fuel _ mem _ _ (by omega) (by omega)) (fun q _ => ?_)
        refine bind_ne_out_of_fuel _ _ (rd_ne_out_of_fuel mem q) (fun c _ => ?_)
        split
        · refine bind_ne_out_of_fuel _ _ (wr_ne_out_of_fuel mem q 0) (fun m _ => ?_)
          simp [pure_eq_ok]
        · simp [pure_eq_ok]
      · obtain ⟨m1, path⟩ := a
        simp only
        refine bind_ne_out_of_fuel _ _ ?_ (fun a _ => ?_)
        · simp only [split_uri_server]
          refine bind_ne_out_of_fuel _ _ (rd_ne_out_of_fuel m1 7) (fun c _ => ?_)
          split
          · refine bind_ne_out_of_fuel _ _
              (scan_until_ne_out_of_fuel _ m1 _ _ (by omega) (by omega)) (fun q _ => ?_)
            refine bind_ne_out_of_fuel _ _ (wr_ne_out_of_fuel m1 q 0) (fun m _ => ?_)
            simp [pure_eq_ok]
          · refine bind_ne_out_of_fuel _ _
              (scan_until_ne_out_of_fuel _ m1 _ _ (by omega) (by omega)) (fun q _ => ?_)
            simp [pure_eq_ok]
        · obtain ⟨m2, sv, p⟩ := a
          simp [pure_eq_ok]
    · refine bind_ne_out_of_fuel _ _ ?_ (fun port _ => by simp [pure_eq_ok])
      simp only [split_uri_port]
      refine bind_ne_out_of_fuel _ _ (rd_ne_out_of_fuel a.mem a.p) (fun c _ => ?_)
      split
      · exact port_loop_ne_out_of_fuel a.mem _ _ 0 (by omega) (by omega)
      · simp [pure_eq_ok]
  · simp [pure_eq_ok]

/-- C6 (the code at the failing input): for `"coap://host:80/p"` the port and the
path come out as 80 and `"p"`, but the server string is `"host:80"`, not
`"host"`, because the colon in front of the port is never overwritten. -/
theorem split_uri_host_keeps_port :
    host_uri (bytes "host") (some (bytes "80")) (some (bytes "p")) ++ [0]
      = cbuf "coap://host:80/p" ∧
    split_uri sample_consts (cbuf "coap://host:80/p") none
      = .ok ⟨cbuf "coap://host:80" ++ cbuf "p", some 7, 80, some 15⟩ ∧
    (⟨cbuf "coap://host:80" ++ cbuf "p", some 7, 80, some 15⟩ : uri_parts).strings
      = (some (bytes "host:80"), 80, some (bytes "p")) ∧
    bytes "host:80" ≠ bytes "host" := by
  decide

/-- C10 (the code at the failing input): with an unclosed bracket and no path, as in
`"coap://[::1"`, the port test reads the byte behind the terminating NUL; with
an unclosed bracket and a path, as in `"coap://[::1/:80"`, the port is parsed
from the bytes of the path. -/
theorem split_uri_unclosed_bracket :
    split_uri sample_consts (cbuf "coap://[::1") none = .fault .out_of_bounds ∧
    split_uri sample_consts (cbuf "coap://[::1/:80") none
      = .ok ⟨cbuf "coap://[::1" ++ cbuf ":80", some 8, 80, some 12⟩ ∧
    (⟨cbuf "coap://[::1" ++ cbuf ":80", some 8, 80, some 12⟩ : uri_parts).strings
      = (some (bytes "::1"), 80, some (bytes ":80")) := by
  decide

end Coap
